import Mathlib

/-!
Verification of the Screenshot-manager repository (screenshot_cli.py and
screenshot_gui.py) against its natural-language specification.

The Python sources are shallowly embedded: text is `List Char`, the regex
`https?://[^\s<>"{}|\\^`\[\]]+` (ASCII fragment) is an explicit scanner,
Python dicts are insertion-ordered association lists, and the two
outcome-processing loops (`run_scan` in each entry point) are explicit
folds over delivery orders.
-/

/-- ASCII whitespace recognised by Python's regex class `\s`
(space, tab, newline, carriage return, vertical tab, form feed). -/
def pySpace (c : Char) : Bool :=
  c == ' ' || c == '\t' || c == '\n' || c == '\r' || c == Char.ofNat 11 || c == Char.ofNat 12

/-- The characters excluded, besides whitespace, by the negated class in the
URL regex of `read_content`: angle brackets, double quote, braces, pipe,
backslash, caret, backquote, square brackets. -/
def urlExcluded : List Char :=
  ['<', '>', Char.ofNat 34, Char.ofNat 123, Char.ofNat 125, '|', '\\', '^',
   Char.ofNat 96, '[', ']']

/-- A character admitted by the regex class `[^\s<>"{}|\\^`\[\]]`. -/
def urlChar (c : Char) : Bool :=
  !(pySpace c) && !(urlExcluded.contains c)

/-- Strip a (lowercase) pattern from the front of a list, comparing
case-insensitively, mirroring `re.IGNORECASE` on the literal scheme part. -/
def stripLowerEq : List Char → List Char → Option (List Char)
  | [], cs => some cs
  | _ :: _, [] => none
  | p :: ps, c :: cs => if c.toLower == p then stripLowerEq ps cs else none

/-- Match `://` followed by a non-empty greedy run of class characters.
Returns the total number of characters consumed (3 plus the run length). -/
def matchTail (r : List Char) : Option Nat :=
  match r with
  | ':' :: '/' :: '/' :: r3 =>
    let run := r3.takeWhile urlChar
    if run.length = 0 then none else some (3 + run.length)
  | _ => none

/-- One attempt of the regex `https?://[^\s<>"{}|\\^`\[\]]+` at the head of
`cs`. Returns `(usedS, n)` where `n` is the length of the match. The greedy
optional `s` is tried first, then the engine backtracks to the plain `http`
alternative, exactly as Python's engine does. -/
def tryMatch (cs : List Char) : Option (Bool × Nat) :=
  match stripLowerEq ['h', 't', 't', 'p'] cs with
  | none => none
  | some r1 =>
    match r1 with
    | [] => none
    | c :: r2 =>
      if c.toLower == 's' then
        match matchTail r2 with
        | some n => some (true, 4 + 1 + n)
        | none =>
          match matchTail r1 with
          | some n => some (false, 4 + n)
          | none => none
      else
        match matchTail r1 with
        | some n => some (false, 4 + n)
        | none => none

/-- Left-to-right non-overlapping scan of `re.findall`: at each position try
the pattern; on success emit the matched text and resume after it, otherwise
advance one character. Fuel is the remaining text length plus one, so it
never runs out. -/
def scanAux : Nat → List Char → List (List Char)
  | 0, _ => []
  | _ + 1, [] => []
  | fuel + 1, c :: cs =>
    match tryMatch (c :: cs) with
    | some (_, n) => (c :: cs).take n :: scanAux fuel ((c :: cs).drop (max n 1))
    | none => scanAux fuel cs

/-- `re.findall(r'https?://[^\s<>"{}|\\^`\[\]]+', text, re.IGNORECASE)`. -/
def findUrlMatches (text : List Char) : List (List Char) :=
  scanAux (text.length + 1) text

/-- The raw scheme part seen by `urlparse` on a scheme-ful input: the text
before the first `:`. -/
def rawScheme (m : List Char) : List Char :=
  m.takeWhile (fun c => c != ':')

/-- `urlparse(m).scheme`: the scheme, lowercased (CPython lowercases it). -/
def urlparse_scheme (m : List Char) : List Char :=
  (rawScheme m).map Char.toLower

/-- The text after the first `:`. -/
def afterScheme (m : List Char) : List Char :=
  m.drop ((rawScheme m).length + 1)

/-- `urlparse(m).netloc` for the scheme-ful strings produced by the regex:
the text after `://`, up to the first `/`, `?` or `#`; empty when the
scheme is not followed by `//`. -/
def netlocOf (m : List Char) : List Char :=
  match afterScheme m with
  | '/' :: '/' :: r => r.takeWhile (fun c => c != '/' && c != '?' && c != '#')
  | _ => []

/-- The body of the per-match loop of `read_content`: parse the match with
`urlparse`; if the netloc is non-empty, emit `f"{parsed.scheme}://{parsed.netloc}"`;
otherwise skip the match silently. -/
def pyUrlparseOrigin (m : List Char) : Option String :=
  if (netlocOf m).length = 0 then none
  else some ((urlparse_scheme m ++ [':', '/', '/'] ++ netlocOf m).asString)

/-- `urls.add(...)` on a Python set, modelled as an insertion-ordered list
with no duplicates. -/
def pySetInsert (l : List String) (s : String) : List String :=
  if s ∈ l then l else l ++ [s]

namespace ScreenshotCLI

/-- `ScreenshotCLI.read_content` (screenshot_cli.py, lines 106-118), given the
decoded text of the input file: findall, urlparse each match, keep the
origins with a non-empty netloc, deduplicate through a set. -/
def read_content (text : List Char) : List String :=
  ((findUrlMatches text).filterMap pyUrlparseOrigin).foldl pySetInsert []

end ScreenshotCLI

namespace ScreenshotGUI

/-- `read_content`, the closure inside `ScreenshotViewer.run_scan`
(screenshot_gui.py, lines 775-789); its extraction logic is textually the
same as the CLI's. -/
def read_content (text : List Char) : List String :=
  ((findUrlMatches text).filterMap pyUrlparseOrigin).foldl pySetInsert []

end ScreenshotGUI

/-- Python `\w` on the ASCII fragment: letters, digits, underscore. -/
def isPyWordChar (c : Char) : Bool :=
  c.isAlpha || c.isDigit || c == '_'

/-- A character matched by the class `[\w\-_\.]`, i.e. kept (not replaced)
by `re.sub(r'[^\w\-_\.]', '_', ...)`. -/
def safeClassChar (c : Char) : Bool :=
  isPyWordChar c || c == '-' || c == '_' || c == '.'

/-- `re.sub(r'[^\w\-_\.]', '_', host)`: the class is a single negated
character class, so the substitution is a character-wise map. -/
def sanitizeHost (host : List Char) : List Char :=
  host.map (fun c => if safeClassChar c then c else '_')

/-- `os.path.join(dir, name)` for a relative file name, as used by both
capture routines. -/
def osPathJoin (dir name : String) : String :=
  dir ++ "/" ++ name

/-- `os.path.basename`: the characters after the last `/`. -/
def basename (p : String) : String :=
  ((p.data.reverse.takeWhile (fun c => c != '/')).reverse).asString

namespace ScreenshotCLI

/-- The file name chosen by `ScreenshotCLI.capture_screenshot`
(screenshot_cli.py, lines 157-158): sanitized netloc plus `.jpg`. -/
def capture_name (url : String) : String :=
  (sanitizeHost (netlocOf url.data)).asString ++ ".jpg"

/-- The full path passed to `page.screenshot` by the CLI capture. -/
def capture_path (output_dir : String) (url : String) : String :=
  osPathJoin output_dir (capture_name url)

/-- The `type` argument of `page.screenshot` in the CLI capture: `'jpeg'`. -/
def capture_image_type : String := "jpeg"

end ScreenshotCLI

namespace ScreenshotGUI

/-- The file name chosen by the `capture` closure in
`ScreenshotViewer.run_scan` (screenshot_gui.py, lines 831-832):
sanitized netloc plus `.png`. -/
def capture_name (url : String) : String :=
  (sanitizeHost (netlocOf url.data)).asString ++ ".png"

/-- The full path passed to `page.screenshot` by the GUI capture. -/
def capture_path (output_dir : String) (url : String) : String :=
  osPathJoin output_dir (capture_name url)

/-- The `type` argument of `page.screenshot` in the GUI capture: `'jpeg'`. -/
def capture_image_type : String := "jpeg"

end ScreenshotGUI

/-! ## Capture outcomes and the worker pool -/

/-- The tuple returned by `capture_screenshot` / `capture`:
`(True, url, filepath)` on success, `(False, url, reason)` on failure. -/
inductive Outcome where
  | success (url : String) (filepath : String)
  | failure (url : String) (reason : String)
deriving DecidableEq

/-- The URL an outcome is tagged with (second component of the tuple). -/
def Outcome.url : Outcome → String
  | .success u _ => u
  | .failure u _ => u

/-- What the browser back end does with one URL: produce a file or raise. -/
inductive PortResult where
  | ok (filepath : String)
  | err (reason : String)
deriving DecidableEq

/-- `ScreenshotCLI.capture_screenshot` seen from the pool: the whole body is
wrapped in `try/except`, so every exception is converted to
`(False, url, str(e))` and the input URL is always echoed in the tuple. -/
def capture_screenshot (port : String → PortResult) (url : String) : Outcome :=
  match port url with
  | .ok fp => .success url fp
  | .err r => .failure url r

/-- The sequence of tuples received by the `as_completed` loop of
`ScreenshotCLI.run_scan` (lines 193-217): one future per submitted URL,
yielded in some completion order (a permutation of the submission indices),
each carrying the outcome of its own URL. -/
def deliveredOutcomes (urls : List String) (port : String → PortResult)
    (order : List (Fin urls.length)) : List Outcome :=
  order.map (fun i => capture_screenshot port (urls.get i))

/-! ## The timed view of the `as_completed` loop (for the 60 s budget) -/

/-- A future of the pool together with its wall-clock completion time in
seconds (`none`: the task hangs forever). -/
structure TimedFuture where
  doneAt : Option Nat
  outcome : Outcome
deriving DecidableEq

/-- Insert a future into a list sorted by completion time. -/
def insertByTime (f : TimedFuture) : List TimedFuture → List TimedFuture
  | [] => [f]
  | g :: gs =>
    if f.doneAt.getD 0 ≤ g.doneAt.getD 0 then f :: g :: gs
    else g :: insertByTime f gs

/-- Sort futures by completion time. -/
def sortByTime : List TimedFuture → List TimedFuture
  | [] => []
  | f :: fs => insertByTime f (sortByTime fs)

/-- `as_completed(futures)` (no timeout argument): yields each future at the
moment it completes, in completion order; a future that never completes is
never yielded (the loop blocks on it forever). -/
def asCompleted (fs : List TimedFuture) : List TimedFuture :=
  sortByTime (fs.filter (fun f => f.doneAt.isSome))

/-- `future.result(timeout)` called at wall-clock time `callTime`: returns
the outcome if the future completes within `timeout` seconds of the call,
otherwise raises `TimeoutError` (modelled as `none`). -/
def future_result (f : TimedFuture) (callTime timeout : Nat) : Option Outcome :=
  match f.doneAt with
  | some t => if t ≤ callTime + timeout then some f.outcome else none
  | none => none

/-- The body of the CLI loop: for each future yielded by `as_completed`
(hence at call time equal to its completion time), call
`future.result(timeout=60)`; `none` is the `except` branch. -/
def cli_loop_results (fs : List TimedFuture) : List (Option Outcome) :=
  (asCompleted fs).map (fun f => future_result f (f.doneAt.getD 0) 60)

/-! ## The URL mapping (a Python dict: insertion-ordered, upsert in place) -/

/-- `d[k]` lookup: first entry with the given key. -/
def dict_get : List (String × String) → String → Option String
  | [], _ => none
  | p :: ps, k => if p.1 = k then some p.2 else dict_get ps k

/-- `d[k] = v`: replace the value in place if the key exists, else append. -/
def dict_set (m : List (String × String)) (k v : String) : List (String × String) :=
  if k ∈ m.map Prod.fst then m.map (fun p => if p.1 = k then (k, v) else p)
  else m ++ [(k, v)]

/-- `self.url_mapping[os.path.basename(result)] = url`, executed on a
Success outcome and on nothing else (both loops, lines 203-204 of the CLI
and 877-878 of the GUI). -/
def mapping_upsert (m : List (String × String)) : Outcome → List (String × String)
  | .success url fp => dict_set m (basename fp) url
  | .failure _ _ => m

/-! ## The outcome-processing loop state -/

/-- The mutable session state touched by the outcome-processing loops:
`self.images`, `self.url_mapping`, the success counter, and the list of
outcomes the loop has handled (in arrival order). -/
structure ScanState where
  images : List String
  url_mapping : List (String × String)
  processed : List Outcome
  successful_captures : Nat
deriving DecidableEq

/-- Processing one arrived outcome (the loop body shared by both sources):
a Success appends the file path to `self.images`, upserts the URL mapping
and bumps the success counter; a Failure only counts as processed. -/
def record_outcome (s : ScanState) (o : Outcome) : ScanState :=
  match o with
  | .success url fp =>
    { s with
      images := s.images ++ [fp]
      url_mapping := dict_set s.url_mapping (basename fp) url
      successful_captures := s.successful_captures + 1
      processed := s.processed ++ [o] }
  | .failure _ _ => { s with processed := s.processed ++ [o] }

/-- Is the stop flag observed as set when the loop reaches arrival index
`i`? `cancelAt = some k` means the user pressed stop after `k` outcomes had
been processed, so the check `if not self.scan_active` fires from index `k`
on; `none` means no cancellation during the run. -/
def stopObserved (i : Nat) : Option Nat → Bool
  | some k => k ≤ i
  | none => false

/-- The `for i, future in enumerate(as_completed(futures))` loop of
`ScreenshotViewer.run_scan` (lines 867-891): before processing each arrival
the flag is checked; once it is observed the loop breaks, cancelling the
remaining futures and discarding their outcomes without recording them. -/
def gui_loop (arrivals : List Outcome) (i : Nat) (cancelAt : Option Nat)
    (s : ScanState) : ScanState :=
  match arrivals with
  | [] => s
  | o :: rest =>
    if stopObserved i cancelAt then s
    else gui_loop rest (i + 1) cancelAt (record_outcome s o)

/-- One GUI scan run around the loop: all futures are submitted up front
(`futures = [self.executor.submit(capture, url) for url in self.urls]`,
line 864, before the loop ever observes the flag), then the loop runs. -/
structure GuiRun where
  submitted : List String
  finalState : ScanState
deriving DecidableEq

/-- `ScreenshotViewer.run_scan` from submission to end of loop. -/
def gui_run_scan (urls : List String) (arrivals : List Outcome)
    (cancelAt : Option Nat) (s0 : ScanState) : GuiRun :=
  { submitted := urls, finalState := gui_loop arrivals 0 cancelAt s0 }

/-- The URL mapping after one session that started with mapping `init` and
processed `outcomes`: the fold of the loop body, projected to the mapping
(this is what `save_url_mapping` then serialises in full). -/
def final_mapping (init : List (String × String)) (outcomes : List Outcome) :
    List (String × String) :=
  (outcomes.foldl record_outcome
    { images := [], url_mapping := init, processed := [], successful_captures := 0 }).url_mapping

/-! ## History -/

/-- One entry of `scan_history.json`. -/
structure HistoryEntry where
  date : String
  input_file : String
  output_dir : String
  total_urls : Nat
  successful : Nat
deriving DecidableEq

/-- `save_to_history` (screenshot_cli.py lines 246-248, screenshot_gui.py
lines 1302-1304): `history.insert(0, entry)` then `history = history[:20]`. -/
def save_to_history (history : List HistoryEntry) (e : HistoryEntry) : List HistoryEntry :=
  (e :: history).take 20

/-! ## The control flow of `run_scan` around the empty-URL check -/

/-- Observable effects of one `run_scan` call relevant to the no-URL path. -/
structure RunTrace where
  no_urls_reported : Bool
  pool_started : Bool
  history_written : Bool
deriving DecidableEq

/-- `ScreenshotCLI.run_scan` control flow (lines 176-181, 224): if
`read_content` yields no URLs, print `"[!] No valid URLs found in file"` and
return before the `ThreadPoolExecutor` is created and before
`save_to_history`; otherwise the pool runs and history is written. -/
def cli_run_trace (text : List Char) : RunTrace :=
  if (ScreenshotCLI.read_content text).length = 0 then
    { no_urls_reported := true, pool_started := false, history_written := false }
  else
    { no_urls_reported := false, pool_started := true, history_written := true }

/-- `ScreenshotViewer.run_scan` control flow (lines 848-855, 900): on zero
URLs it emits `scan_progress(0, "⚠️ No valid URLs found in file")`, resets
the buttons and returns before the executor is created and before
`save_to_history`. -/
def gui_run_trace (text : List Char) : RunTrace :=
  if (ScreenshotGUI.read_content text).length = 0 then
    { no_urls_reported := true, pool_started := false, history_written := false }
  else
    { no_urls_reported := false, pool_started := true, history_written := true }

/-! ## Sanitization as the claims word it -/

/-- Modelled from the claim wording for the file name: replace every
non-word character of the host with an underscore. -/
def claimSanitize (host : List Char) : List Char :=
  host.map (fun c => if isPyWordChar c then c else '_')

/-- Modelled from the amended wording: replace every character that is
neither a word character nor a hyphen nor a dot with an underscore. -/
def amendedSanitize (host : List Char) : List Char :=
  host.map (fun c => if isPyWordChar c || c == '-' || c == '.' then c else '_')

/-- The origin grammar of the spec: `scheme://host` with scheme `http` or
`https`, a non-empty host, and no path/query/fragment delimiter inside the
host. -/
def isOriginForm (s : String) : Prop :=
  ∃ host : List Char, host ≠ [] ∧
    (s.data = "http://".data ++ host ∨ s.data = "https://".data ++ host) ∧
    ∀ c ∈ host, c ≠ '/' ∧ c ≠ '?' ∧ c ≠ '#'

/-! ## Concrete instances used to witness the theorems -/

/-- A two-URL input set. -/
def wUrls : List String := ["http://a.com", "http://b.org"]

/-- A capture back end that succeeds on the first URL and fails on the
second. -/
def wPort : String → PortResult :=
  fun u => if u = "http://a.com" then PortResult.ok "shots/a.com.jpg"
           else PortResult.err "net::ERR_TIMED_OUT"

/-- A delivery order in which the second submission completes first. -/
def wOrder : List (Fin wUrls.length) := [⟨1, by decide⟩, ⟨0, by decide⟩]

/-- A sample history entry. -/
def wEntry : HistoryEntry :=
  { date := "2026-10-12 00:00:00", input_file := "urls.txt",
    output_dir := "screenshots", total_urls := 2, successful := 1 }

/-- The empty session state at the start of a GUI run. -/
def wState : ScanState :=
  { images := [], url_mapping := [], processed := [], successful_captures := 0 }

/-- Two arriving outcomes, one success then one failure. -/
def wArrivals : List Outcome :=
  [Outcome.success "http://a.com" "shots/a.com.png",
   Outcome.failure "http://b.org" "timeout"]

/-! ## Helper lemmas -/

theorem sanitize_eq_amended (host : List Char) : sanitizeHost host = amendedSanitize host := by
  unfold sanitizeHost amendedSanitize
  refine List.map_congr_left fun c _ => ?_
  by_cases hc : c = '_'
  · subst hc; decide
  · have h1 : (c == '_') = false := by simp [hc]
    simp [safeClassChar, h1]

theorem record_outcome_processed (s : ScanState) (o : Outcome) :
    (record_outcome s o).processed = s.processed ++ [o] := by
  cases o <;> rfl

theorem foldl_record_processed (arrivals : List Outcome) (s : ScanState) :
    (arrivals.foldl record_outcome s).processed = s.processed ++ arrivals := by
  induction arrivals generalizing s with
  | nil => simp
  | cons o rest ih =>
    rw [List.foldl_cons, ih, record_outcome_processed, List.append_assoc]
    rfl

theorem gui_loop_no_cancel (arrivals : List Outcome) (i : Nat) (s : ScanState) :
    gui_loop arrivals i none s = arrivals.foldl record_outcome s := by
  induction arrivals generalizing i s with
  | nil => rfl
  | cons o rest ih => rw [gui_loop, List.foldl_cons]; simp [stopObserved]; exact ih _ _

theorem gui_loop_cancel (arrivals : List Outcome) (i k : Nat) (s : ScanState) :
    gui_loop arrivals i (some k) s = gui_loop (arrivals.take (k - i)) i none s := by
  induction arrivals generalizing i s with
  | nil => simp [gui_loop]
  | cons o rest ih =>
    by_cases hk : k ≤ i
    · have h0 : k - i = 0 := Nat.sub_eq_zero_of_le hk
      rw [h0]
      simp [gui_loop, stopObserved, hk]
    · have hsub : k - i = (k - (i + 1)) + 1 := by omega
      have hf : stopObserved i (some k) = false := by simp [stopObserved, hk]
      rw [hsub, List.take_succ_cons]
      show (if stopObserved i (some k) then s
            else gui_loop rest (i + 1) (some k) (record_outcome s o))
          = (if stopObserved i none then s
            else gui_loop (List.take (k - (i + 1)) rest) (i + 1) none (record_outcome s o))
      rw [hf]
      simp only [stopObserved, Bool.false_eq_true, if_false]
      exact ih _ _

theorem dict_get_map_replace_self (m : List (String × String)) (k v : String)
    (hk : k ∈ m.map Prod.fst) :
    dict_get (m.map (fun p => if p.1 = k then (k, v) else p)) k = some v := by
  induction m with
  | nil => simp at hk
  | cons p ps ih =>
    by_cases hp : p.1 = k
    · simp [dict_get, hp]
    · have hk' : k ∈ ps.map Prod.fst := by
        rcases List.mem_cons.mp hk with h | h
        · exact absurd h.symm hp
        · exact h
      simp only [List.map_cons, if_neg hp, dict_get, hp, if_false]
      exact ih hk'

theorem dict_get_map_replace_ne (m : List (String × String)) (k v k' : String)
    (h : k' ≠ k) :
    dict_get (m.map (fun p => if p.1 = k then (k, v) else p)) k' = dict_get m k' := by
  have hkk : k ≠ k' := fun hh => h hh.symm
  induction m with
  | nil => rfl
  | cons p ps ih =>
    by_cases hp : p.1 = k
    · have hpk : p.1 ≠ k' := fun hh => h (hh.symm.trans hp)
      simp only [List.map_cons, if_pos hp, dict_get, if_neg hkk, if_neg hpk]
      exact ih
    · simp only [List.map_cons, if_neg hp, dict_get]
      by_cases hq : p.1 = k'
      · rw [if_pos hq, if_pos hq]
      · rw [if_neg hq, if_neg hq]
        exact ih

theorem dict_get_append_single_ne (m : List (String × String)) (k v k' : String)
    (h : k' ≠ k) :
    dict_get (m ++ [(k, v)]) k' = dict_get m k' := by
  induction m with
  | nil =>
    have : k ≠ k' := fun hh => h hh.symm
    simp [dict_get, this]
  | cons p ps ih =>
    by_cases hq : p.1 = k'
    · simp [dict_get, hq]
    · simp only [List.cons_append, dict_get, hq, if_false]
      exact ih

theorem dict_get_dict_set_self (m : List (String × String)) (k v : String) :
    dict_get (dict_set m k v) k = some v := by
  unfold dict_set
  by_cases hk : k ∈ m.map Prod.fst
  · rw [if_pos hk]; exact dict_get_map_replace_self m k v hk
  · rw [if_neg hk]
    induction m with
    | nil => simp [dict_get]
    | cons p ps ih =>
      have hp : p.1 ≠ k := by
        intro hh
        exact hk (List.mem_cons.mpr (Or.inl hh.symm))
      simp only [List.cons_append, dict_get, hp, if_false]
      exact ih (fun hh => hk (List.mem_cons.mpr (Or.inr hh)))

theorem dict_get_dict_set_ne (m : List (String × String)) (k v k' : String)
    (h : k' ≠ k) :
    dict_get (dict_set m k v) k' = dict_get m k' := by
  unfold dict_set
  by_cases hk : k ∈ m.map Prod.fst
  · rw [if_pos hk]; exact dict_get_map_replace_ne m k v k' h
  · rw [if_neg hk]; exact dict_get_append_single_ne m k v k' h

theorem takeWhile_all_eq {p : Char → Bool} : ∀ {l : List Char},
    (∀ c ∈ l, p c = true) → l.takeWhile p = l := by
  intro l
  induction l with
  | nil => intro _; rfl
  | cons c cs ih =>
    intro h
    rw [List.takeWhile_cons, h c (List.mem_cons_self c cs)]
    simp only [if_true]
    rw [ih fun d hd => h d (List.mem_cons_of_mem c hd)]

theorem takeWhile_append_stop {p : Char → Bool} {y : Char} :
    ∀ {xs : List Char} (ys : List Char),
    (∀ c ∈ xs, p c = true) → p y = false → (xs ++ y :: ys).takeWhile p = xs := by
  intro xs
  induction xs with
  | nil =>
    intro ys _ hy
    simp [List.takeWhile_cons, hy]
  | cons x xs ih =>
    intro ys h hy
    rw [List.cons_append, List.takeWhile_cons, h x (List.mem_cons_self x xs)]
    simp only [if_true]
    rw [ih ys (fun d hd => h d (List.mem_cons_of_mem x hd)) hy]

theorem sanitizeHost_no_slash (host : List Char) :
    ∀ c ∈ sanitizeHost host, c ≠ '/' := by
  intro c hc
  rcases List.mem_map.mp hc with ⟨a, _, ha⟩
  by_cases hcl : safeClassChar a
  · rw [if_pos hcl] at ha
    subst ha
    intro hslash
    subst hslash
    exact absurd hcl (by decide)
  · rw [if_neg hcl] at ha
    subst ha
    decide

theorem basename_osPathJoin (d n : String) (h : ∀ c ∈ n.data, c ≠ '/') :
    basename (osPathJoin d n) = n := by
  unfold basename osPathJoin
  have hdata : (d ++ "/" ++ n).data = d.data ++ '/' :: n.data := by
    rw [String.data_append, String.data_append]
    show d.data ++ ['/'] ++ n.data = d.data ++ '/' :: n.data
    rw [List.append_assoc, List.singleton_append]
  rw [hdata, List.reverse_append, List.reverse_cons, List.append_assoc,
    List.singleton_append]
  rw [takeWhile_append_stop d.data.reverse ?hall ?hstop]
  case hall =>
    intro c hc
    have hc' : c ∈ n.data := List.mem_reverse.mp hc
    simpa using h c hc'
  case hstop => rfl
  rw [List.reverse_reverse]
  rfl

theorem capture_screenshot_url (port : String → PortResult) (u : String) :
    (capture_screenshot port u).url = u := by
  unfold capture_screenshot
  cases port u <;> rfl

theorem record_outcome_mapping (s : ScanState) (o : Outcome) :
    (record_outcome s o).url_mapping = mapping_upsert s.url_mapping o := by
  cases o <;> rfl

theorem foldl_record_mapping (outcomes : List Outcome) (s : ScanState) :
    (outcomes.foldl record_outcome s).url_mapping
      = outcomes.foldl mapping_upsert s.url_mapping := by
  induction outcomes generalizing s with
  | nil => rfl
  | cons o rest ih =>
    rw [List.foldl_cons, List.foldl_cons, ih, record_outcome_mapping]

theorem foldl_upsert_isSome (outcomes : List Outcome) :
    ∀ (init : List (String × String)) (k : String),
    (dict_get init k).isSome = true →
    (dict_get (outcomes.foldl mapping_upsert init) k).isSome = true := by
  induction outcomes with
  | nil => intro init k h; exact h
  | cons o rest ih =>
    intro init k h
    rw [List.foldl_cons]
    refine ih _ k ?_
    cases o with
    | failure u r => exact h
    | success url fp =>
      by_cases hb : basename fp = k
      · subst hb
        rw [mapping_upsert, dict_get_dict_set_self]
        rfl
      · rw [mapping_upsert, dict_get_dict_set_ne _ _ _ _ (fun hh => hb hh.symm)]
        exact h

theorem foldl_upsert_frame (outcomes : List Outcome) :
    ∀ (init : List (String × String)) (k : String),
    (∀ url fp, Outcome.success url fp ∈ outcomes → basename fp ≠ k) →
    dict_get (outcomes.foldl mapping_upsert init) k = dict_get init k := by
  induction outcomes with
  | nil => intro init k _; rfl
  | cons o rest ih =>
    intro init k h
    rw [List.foldl_cons]
    have htail : ∀ url fp, Outcome.success url fp ∈ rest → basename fp ≠ k :=
      fun url fp hm => h url fp (List.mem_cons_of_mem o hm)
    rw [ih _ k htail]
    cases o with
    | failure u r => rfl
    | success url fp =>
      have hb : basename fp ≠ k := h url fp (List.mem_cons_self _ _)
      rw [mapping_upsert, dict_get_dict_set_ne _ _ _ _ (fun hh => hb hh.symm)]

theorem pySetInsert_nodup (l : List String) (s : String) (h : l.Nodup) :
    (pySetInsert l s).Nodup := by
  unfold pySetInsert
  by_cases hs : s ∈ l
  · rw [if_pos hs]; exact h
  · rw [if_neg hs, ← List.concat_eq_append]
    exact List.Nodup.concat hs h

theorem pySetFold_nodup (l : List String) :
    ∀ acc : List String, acc.Nodup → (l.foldl pySetInsert acc).Nodup := by
  induction l with
  | nil => intro acc h; exact h
  | cons a l ih =>
    intro acc h
    rw [List.foldl_cons]
    exact ih _ (pySetInsert_nodup acc a h)

theorem pySetFold_mem (l : List String) :
    ∀ (acc : List String) (s : String),
    s ∈ l.foldl pySetInsert acc → s ∈ acc ∨ s ∈ l := by
  induction l with
  | nil => intro acc s h; exact Or.inl h
  | cons a l ih =>
    intro acc s h
    rw [List.foldl_cons] at h
    rcases ih _ s h with h' | h'
    · unfold pySetInsert at h'
      by_cases ha : a ∈ acc
      · rw [if_pos ha] at h'
        exact Or.inl h'
      · rw [if_neg ha] at h'
        rcases List.mem_append.mp h' with h'' | h''
        · exact Or.inl h''
        · exact Or.inr (List.mem_cons.mpr (Or.inl (List.mem_singleton.mp h'')))
    · exact Or.inr (List.mem_cons_of_mem a h')

theorem stripLowerEq_spec : ∀ (p cs rest : List Char),
    stripLowerEq p cs = some rest →
    ∃ pre, cs = pre ++ rest ∧ pre.map Char.toLower = p := by
  intro p
  induction p with
  | nil =>
    intro cs rest h
    simp only [stripLowerEq, Option.some.injEq] at h
    exact ⟨[], by rw [h]; rfl, rfl⟩
  | cons pc ps ih =>
    intro cs rest h
    cases cs with
    | nil => simp [stripLowerEq] at h
    | cons c cs' =>
      simp only [stripLowerEq] at h
      by_cases hc : (c.toLower == pc) = true
      · rw [if_pos hc] at h
        rcases ih cs' rest h with ⟨pre, hcs, hmap⟩
        refine ⟨c :: pre, ?_, ?_⟩
        · rw [List.cons_append, hcs]
        · rw [List.map_cons, hmap, eq_of_beq hc]
      · rw [if_neg hc] at h
        cases h

theorem matchTail_spec (r : List Char) (n : Nat) (h : matchTail r = some n) :
    ∃ r3, r = ':' :: '/' :: '/' :: r3 ∧
      n = 3 + (r3.takeWhile urlChar).length ∧ (r3.takeWhile urlChar).length ≠ 0 := by
  unfold matchTail at h
  split at h
  next r3 =>
    by_cases hz : (r3.takeWhile urlChar).length = 0
    · rw [if_pos hz] at h
      cases h
    · rw [if_neg hz] at h
      refine ⟨r3, rfl, ?_, hz⟩
      exact (Option.some.inj h).symm
  next => cases h

theorem tryMatch_spec (cs : List Char) (b : Bool) (n : Nat)
    (h : tryMatch cs = some (b, n)) :
    ∃ pre r3, cs = pre ++ ':' :: '/' :: '/' :: r3 ∧
      pre.map Char.toLower = (if b then ['h', 't', 't', 'p', 's'] else ['h', 't', 't', 'p']) ∧
      (r3.takeWhile urlChar).length ≠ 0 ∧
      n = pre.length + (3 + (r3.takeWhile urlChar).length) := by
  unfold tryMatch at h
  split at h
  next => cases h
  next r1 hstrip =>
    rcases stripLowerEq_spec _ _ _ hstrip with ⟨pre4, hcs, hmap4⟩
    have hlen4 : pre4.length = 4 := by
      have hl := congrArg List.length hmap4
      simpa using hl
    split at h
    next => cases h
    next c r2 =>
      split at h
      next hc =>
        split at h
        next m hmt =>
          have h' := Option.some.inj h
          rw [Prod.mk.injEq] at h'
          obtain ⟨hb, hn⟩ := h'
          subst hb
          subst hn
          rcases matchTail_spec r2 m hmt with ⟨r3, hr2, hm, hne⟩
          refine ⟨pre4 ++ [c], r3, ?_, ?_, hne, ?_⟩
          · rw [hcs, hr2, List.append_assoc]
            rfl
          · simp [hmap4, eq_of_beq hc]
          · rw [List.length_append, hlen4]
            simp only [List.length_singleton]
            omega
        next hmt =>
          split at h
          next m hmt1 =>
            rcases matchTail_spec _ m hmt1 with ⟨r3, hr1, _, _⟩
            have hc' : c = ':' := ((List.cons.injEq _ _ _ _).mp hr1).1
            rw [hc'] at hc
            exact absurd hc (by decide)
          next => cases h
      next hc =>
        split at h
        next m hmt1 =>
          have h' := Option.some.inj h
          rw [Prod.mk.injEq] at h'
          obtain ⟨hb, hn⟩ := h'
          subst hb
          subst hn
          rcases matchTail_spec _ m hmt1 with ⟨r3, hr1, hm, hne⟩
          refine ⟨pre4, r3, ?_, ?_, hne, ?_⟩
          · rw [hcs, hr1]
          · simp [hmap4]
          · rw [hlen4, hm]
        next => cases h

theorem take_takeWhile_length (p : Char → Bool) :
    ∀ l : List Char, l.take (l.takeWhile p).length = l.takeWhile p := by
  intro l
  induction l with
  | nil => rfl
  | cons c cs ih =>
    by_cases hc : p c = true
    · rw [List.takeWhile_cons, if_pos hc, List.length_cons, List.take_succ_cons, ih]
    · rw [List.takeWhile_cons, if_neg hc]
      rfl

theorem tryMatch_take (cs : List Char) (b : Bool) (n : Nat)
    (h : tryMatch cs = some (b, n)) :
    ∃ pre run, cs.take n = pre ++ ':' :: '/' :: '/' :: run ∧
      pre.map Char.toLower = (if b then ['h', 't', 't', 'p', 's'] else ['h', 't', 't', 'p']) ∧
      run ≠ [] ∧ ∀ c ∈ run, urlChar c = true := by
  rcases tryMatch_spec cs b n h with ⟨pre, r3, hcs, hmap, hne, hn⟩
  refine ⟨pre, r3.takeWhile urlChar, ?_, hmap, ?_, ?_⟩
  · rw [hcs, hn, List.take_append]
    congr 1
    have h3 : 3 + (r3.takeWhile urlChar).length
        = (r3.takeWhile urlChar).length + 1 + 1 + 1 := by omega
    rw [h3, List.take_succ_cons, List.take_succ_cons, List.take_succ_cons,
      take_takeWhile_length]
  · intro hemp
    rw [hemp] at hne
    exact hne rfl
  · intro c hc
    exact List.mem_takeWhile_imp hc

theorem scanAux_matches : ∀ (fuel : Nat) (cs m : List Char),
    m ∈ scanAux fuel cs →
    ∃ cs' b n, tryMatch cs' = some (b, n) ∧ m = cs'.take n := by
  intro fuel
  induction fuel with
  | zero =>
    intro cs m h
    simp [scanAux] at h
  | succ fuel ih =>
    intro cs m h
    cases cs with
    | nil => simp [scanAux] at h
    | cons c cs' =>
      rw [scanAux] at h
      split at h
      next b n htm =>
        rcases List.mem_cons.mp h with hm | hm
        · exact ⟨c :: cs', b, n, htm, hm⟩
        · exact ih _ m hm
      next => exact ih _ m h

theorem pyUrlparseOrigin_form (m : List Char) (s : String)
    (hm : ∃ cs b n, tryMatch cs = some (b, n) ∧ m = cs.take n)
    (ho : pyUrlparseOrigin m = some s) : isOriginForm s := by
  rcases hm with ⟨cs, b, n, htm, rfl⟩
  rcases tryMatch_take cs b n htm with ⟨pre, run, htake, hmap, hrun_ne, hrun_mem⟩
  rw [htake] at ho
  have hpre_ne : ∀ c ∈ pre, ((c != ':') = true) := by
    intro c hc
    have hcl : c.toLower ∈ pre.map Char.toLower := List.mem_map_of_mem _ hc
    rw [hmap] at hcl
    have hcne : c ≠ ':' := by
      intro hceq
      subst hceq
      revert hcl
      cases b <;> decide
    exact bne_iff_ne.mpr hcne
  have hraw : rawScheme (pre ++ ':' :: '/' :: '/' :: run) = pre := by
    unfold rawScheme
    exact takeWhile_append_stop _ hpre_ne rfl
  have hafter : afterScheme (pre ++ ':' :: '/' :: '/' :: run) = '/' :: '/' :: run := by
    unfold afterScheme
    rw [hraw, List.drop_append 1]
    rfl
  have hnet : netlocOf (pre ++ ':' :: '/' :: '/' :: run)
      = run.takeWhile (fun c => c != '/' && c != '?' && c != '#') := by
    unfold netlocOf
    rw [hafter]
    rfl
  rw [pyUrlparseOrigin, hnet] at ho
  by_cases hz : (run.takeWhile (fun c => c != '/' && c != '?' && c != '#')).length = 0
  · rw [if_pos hz] at ho
    cases ho
  · rw [if_neg hz] at ho
    have hs := (Option.some.inj ho).symm
    refine ⟨run.takeWhile (fun c => c != '/' && c != '?' && c != '#'), ?_, ?_, ?_⟩
    · intro hemp
      rw [hemp] at hz
      exact hz rfl
    · rw [hs]
      unfold urlparse_scheme
      rw [hraw, hmap]
      cases b
      · left
        rfl
      · right
        rfl
    · intro c hc
      have hp := List.mem_takeWhile_imp hc
      simp only [Bool.and_eq_true, bne_iff_ne] at hp
      exact ⟨hp.1.1, hp.1.2, hp.2⟩

theorem capture_name_no_slash (host : List Char) (ext : String)
    (hext : ∀ c ∈ ext.data, c ≠ '/') :
    ∀ c ∈ ((sanitizeHost host).asString ++ ext).data, c ≠ '/' := by
  intro c hc
  rw [String.data_append] at hc
  rcases List.mem_append.mp hc with h | h
  · exact sanitizeHost_no_slash host c h
  · exact hext c h

/-! ## Claim theorems -/

/-- C1: for every sequence of N origin URLs submitted to the pool and any
completion (delivery) order — a permutation of the submission indices, as
`as_completed` over the N futures yields each exactly once — the
outcome-processing loop receives exactly N outcomes, and since
`capture_screenshot` echoes its input URL in the returned tuple, the tags
of the received outcomes are a permutation of the submitted URLs, hence
pairwise distinct whenever the inputs are. -/
theorem pool_yields_one_outcome_per_url (urls : List String)
    (port : String → PortResult) (order : List (Fin urls.length))
    (h : order.Perm (List.finRange urls.length)) :
    (deliveredOutcomes urls port order).length = urls.length ∧
    ((deliveredOutcomes urls port order).map Outcome.url).Perm urls ∧
    (urls.Nodup → ((deliveredOutcomes urls port order).map Outcome.url).Nodup) := by
  have hmap : (deliveredOutcomes urls port order).map Outcome.url
      = order.map urls.get := by
    unfold deliveredOutcomes
    rw [List.map_map]
    exact List.map_congr_left fun i _ => capture_screenshot_url port (urls.get i)
  have hperm : ((deliveredOutcomes urls port order).map Outcome.url).Perm urls := by
    rw [hmap]
    have hp := h.map urls.get
    rwa [List.finRange_map_get] at hp
  refine ⟨?_, hperm, fun hn => hperm.nodup_iff.mpr hn⟩
  unfold deliveredOutcomes
  rw [List.length_map, h.length_eq, List.length_finRange]

/-- Witness for C1 at a concrete two-URL run delivered in reverse order. -/
theorem pool_yields_one_outcome_per_url_witness :
    wOrder.Perm (List.finRange wUrls.length) ∧
    ((deliveredOutcomes wUrls wPort wOrder).length = wUrls.length ∧
     ((deliveredOutcomes wUrls wPort wOrder).map Outcome.url).Perm wUrls ∧
     (wUrls.Nodup → ((deliveredOutcomes wUrls wPort wOrder).map Outcome.url).Nodup)) :=
  ⟨by decide, pool_yields_one_outcome_per_url wUrls wPort wOrder (by decide)⟩

/-- C2: every string produced by `read_content` has the origin form
`scheme://host` with scheme http or https, a non-empty host and no
path/query/fragment; the returned collection has no duplicates; empty input
yields the empty set; and the scenario-A text yields exactly the two
origins http://a.com and https://b.org. -/
theorem extract_returns_dedup_origin_set (text : List Char) (s : String)
    (hs : s ∈ ScreenshotCLI.read_content text) :
    (ScreenshotCLI.read_content text).Nodup ∧
    isOriginForm s ∧
    ScreenshotCLI.read_content [] = [] ∧
    ScreenshotCLI.read_content
        "visit http://a.com/x and also http://a.com/y plus https://b.org".data
      = ["http://a.com", "https://b.org"] := by
  refine ⟨pySetFold_nodup _ [] List.nodup_nil, ?_, rfl, by rfl⟩
  have hmem : s ∈ (findUrlMatches text).filterMap pyUrlparseOrigin := by
    rcases pySetFold_mem _ [] s hs with hnil | hmem
    · exact absurd hnil (List.not_mem_nil s)
    · exact hmem
  rcases List.mem_filterMap.mp hmem with ⟨m, hm, ho⟩
  exact pyUrlparseOrigin_form m s (scanAux_matches _ _ m hm) ho

/-- Witness for C2 at a concrete text containing one URL with a path. -/
theorem extract_returns_dedup_origin_set_witness :
    "http://x.org" ∈ ScreenshotCLI.read_content "see http://x.org/p".data ∧
    ((ScreenshotCLI.read_content "see http://x.org/p".data).Nodup ∧
     isOriginForm "http://x.org" ∧
     ScreenshotCLI.read_content [] = [] ∧
     ScreenshotCLI.read_content
         "visit http://a.com/x and also http://a.com/y plus https://b.org".data
       = ["http://a.com", "https://b.org"]) :=
  ⟨by decide,
   extract_returns_dedup_origin_set "see http://x.org/p".data "http://x.org" (by decide)⟩

/-- C3 (code-bug evidence): in the CLI loop `future.result(timeout=60)` is
called only on futures already yielded by `as_completed`, i.e. at a call
time equal to their completion time, so it always returns the task's real
outcome and the 60-second budget never fires: a task completing only after
1000 s is recorded with its own Success outcome instead of a Failure
"timed out", and a task that never completes is never yielded at all (the
loop simply blocks), contrary to the claimed wall-clock budget. -/
theorem wallclock_timeout_never_fires (f : TimedFuture) (t : Nat)
    (h : f.doneAt = some t) :
    future_result f t 60 = some f.outcome ∧
    cli_loop_results
        [⟨some 1000, Outcome.success "https://example.com" "shots/example.com.jpg"⟩]
      = [some (Outcome.success "https://example.com" "shots/example.com.jpg")] ∧
    cli_loop_results [⟨none, Outcome.success "https://hung.example" "x.jpg"⟩] = [] := by
  refine ⟨?_, rfl, rfl⟩
  unfold future_result
  rw [h]
  show (if t ≤ t + 60 then some f.outcome else none) = some f.outcome
  rw [if_pos (Nat.le_add_right t 60)]

/-- Witness for C3 at a future that completes after 1000 seconds. -/
theorem wallclock_timeout_never_fires_witness :
    (⟨some 1000, Outcome.success "https://example.com" "shots/example.com.jpg"⟩
        : TimedFuture).doneAt = some 1000 ∧
    (future_result
        ⟨some 1000, Outcome.success "https://example.com" "shots/example.com.jpg"⟩
        1000 60
      = some (Outcome.success "https://example.com" "shots/example.com.jpg") ∧
     cli_loop_results
        [⟨some 1000, Outcome.success "https://example.com" "shots/example.com.jpg"⟩]
      = [some (Outcome.success "https://example.com" "shots/example.com.jpg")] ∧
     cli_loop_results [⟨none, Outcome.success "https://hung.example" "x.jpg"⟩] = []) :=
  ⟨rfl, wallclock_timeout_never_fires _ 1000 rfl⟩

/-- C4: if cancellation is requested after K outcomes have been processed
(and at least K outcomes arrive), exactly those K recorded outcomes are
kept, the submitted task list is the same as in an uncancelled run (all
submissions happen before the loop, none after the flag is observed), and
the final session state equals the state produced by the first K arrivals
alone — no outcome arriving after cancellation mutates the result store. -/
theorem cancellation_preserves_recorded_outcomes (urls : List String)
    (arrivals : List Outcome) (k : Nat) (s0 : ScanState)
    (h : k ≤ arrivals.length) :
    (gui_run_scan urls arrivals (some k) s0).finalState.processed.length
      = s0.processed.length + k ∧
    (gui_run_scan urls arrivals (some k) s0).submitted
      = (gui_run_scan urls arrivals none s0).submitted ∧
    (gui_run_scan urls arrivals (some k) s0).finalState
      = (gui_run_scan urls (arrivals.take k) none s0).finalState := by
  have hstate : (gui_run_scan urls arrivals (some k) s0).finalState
      = (gui_run_scan urls (arrivals.take k) none s0).finalState := by
    show gui_loop arrivals 0 (some k) s0 = gui_loop (arrivals.take k) 0 none s0
    rw [gui_loop_cancel, Nat.sub_zero]
  refine ⟨?_, rfl, hstate⟩
  rw [hstate]
  show (gui_loop (arrivals.take k) 0 none s0).processed.length = _
  rw [gui_loop_no_cancel, foldl_record_processed, List.length_append,
    List.length_take, min_eq_left h]

/-- Witness for C4: cancellation after the first of two arrivals. -/
theorem cancellation_preserves_recorded_outcomes_witness :
    1 ≤ wArrivals.length ∧
    ((gui_run_scan wUrls wArrivals (some 1) wState).finalState.processed.length
       = wState.processed.length + 1 ∧
     (gui_run_scan wUrls wArrivals (some 1) wState).submitted
       = (gui_run_scan wUrls wArrivals none wState).submitted ∧
     (gui_run_scan wUrls wArrivals (some 1) wState).finalState
       = (gui_run_scan wUrls (wArrivals.take 1) none wState).finalState) :=
  ⟨by decide, cancellation_preserves_recorded_outcomes wUrls wArrivals 1 wState (by decide)⟩

/-- C5: after any positive number of completed sessions — each appending
through `save_to_history`, which inserts at index 0 and truncates to the
newest 20 — the persisted history has at most 20 entries and the entry of
the most recent session is at index 0. -/
theorem history_capped_at_twenty (init : List HistoryEntry)
    (sessions : List HistoryEntry) (h : sessions ≠ []) :
    (sessions.foldl save_to_history init).length ≤ 20 ∧
    (sessions.foldl save_to_history init).head? = sessions.getLast? := by
  rcases List.eq_nil_or_concat sessions with hnil | ⟨L, e, hLe⟩
  · exact absurd hnil h
  · subst hLe
    rw [List.concat_eq_append, List.foldl_append]
    constructor
    · show ((e :: List.foldl save_to_history init L).take 20).length ≤ 20
      exact List.length_take_le _ _
    · rw [List.getLast?_concat]
      show ((e :: List.foldl save_to_history init L).take 20).head? = some e
      rw [List.head?_take]
      simp

/-- Witness for C5: one session appended to an empty history. -/
theorem history_capped_at_twenty_witness :
    ([wEntry] : List HistoryEntry) ≠ [] ∧
    (([wEntry].foldl save_to_history []).length ≤ 20 ∧
     ([wEntry].foldl save_to_history []).head? = [wEntry].getLast?) :=
  ⟨by decide, history_capped_at_twenty [] [wEntry] (by decide)⟩

/-- C6 (counterexample): the claim derives the file name by replacing every
non-word character of the host with an underscore, but the code's class
`[^\w\-_\.]` also keeps hyphens and dots, so for http://a-b.com the code
produces a-b.com.jpg while the claimed rule produces a_b_com.jpg. -/
theorem sanitize_claim_counterexample :
    ScreenshotCLI.capture_name "http://a-b.com" = "a-b.com.jpg" ∧
    (claimSanitize (netlocOf "http://a-b.com".data)).asString ++ ".jpg" = "a_b_com.jpg" ∧
    ScreenshotCLI.capture_name "http://a-b.com"
      ≠ (claimSanitize (netlocOf "http://a-b.com".data)).asString ++ ".jpg" :=
  ⟨by rfl, by rfl, by decide⟩

/-- C6 (amended): the output file name is derived deterministically from
the URL's host by replacing every character that is neither a word
character nor a hyphen nor a dot with an underscore; consequently the name
depends only on the host, so the same URL set yields the same file names
in any two sessions. -/
theorem capture_name_amended_sanitization (url : String) :
    ScreenshotCLI.capture_name url
      = (amendedSanitize (netlocOf url.data)).asString ++ ".jpg" ∧
    ∀ v : String, netlocOf url.data = netlocOf v.data →
      ScreenshotCLI.capture_name url = ScreenshotCLI.capture_name v := by
  constructor
  · unfold ScreenshotCLI.capture_name
    rw [sanitize_eq_amended]
  · intro v hv
    unfold ScreenshotCLI.capture_name
    rw [hv]

/-- Witness for C6 (amended) at http://a.com. -/
theorem capture_name_amended_sanitization_witness :
    ScreenshotCLI.capture_name "http://a.com"
      = (amendedSanitize (netlocOf "http://a.com".data)).asString ++ ".jpg" ∧
    ScreenshotCLI.capture_name "http://a.com" = ScreenshotCLI.capture_name "http://a.com" :=
  ⟨(capture_name_amended_sanitization "http://a.com").1,
   (capture_name_amended_sanitization "http://a.com").2 "http://a.com" rfl⟩

/-- C7: when extraction yields zero URLs, both entry points report the
no-URLs condition to the caller, return before the worker pool is created,
and write no history entry. -/
theorem no_urls_terminates_before_pool (text : List Char)
    (h : ScreenshotCLI.read_content text = []) :
    cli_run_trace text
      = { no_urls_reported := true, pool_started := false, history_written := false } ∧
    gui_run_trace text
      = { no_urls_reported := true, pool_started := false, history_written := false } := by
  have hg : ScreenshotGUI.read_content text = [] := h
  unfold cli_run_trace gui_run_trace
  rw [h, hg]
  exact ⟨rfl, rfl⟩

/-- Witness for C7 at the empty input text. -/
theorem no_urls_terminates_before_pool_witness :
    ScreenshotCLI.read_content [] = [] ∧
    (cli_run_trace []
       = { no_urls_reported := true, pool_started := false, history_written := false } ∧
     gui_run_trace []
       = { no_urls_reported := true, pool_started := false, history_written := false }) :=
  ⟨rfl, no_urls_terminates_before_pool [] rfl⟩

/-- C8: the URL-extraction routine of the CLI entry point and the one of
the GUI entry point are extensionally equal on every (identically decoded)
input text. -/
theorem read_content_cli_eq_gui (text : List Char) :
    ScreenshotCLI.read_content text = ScreenshotGUI.read_content text := rfl

/-- C9: a scan run only adds or overwrites URL-mapping entries, never
removes them: every key present in the mapping loaded at session start is
still present in the persisted mapping, and if no Success outcome of the
session writes that key it keeps its original value. -/
theorem mapping_preserves_untouched_keys (init : List (String × String))
    (outcomes : List Outcome) (k v : String)
    (h : dict_get init k = some v) :
    (dict_get (final_mapping init outcomes) k).isSome = true ∧
    ((∀ url fp, Outcome.success url fp ∈ outcomes → basename fp ≠ k) →
      dict_get (final_mapping init outcomes) k = some v) := by
  have hfold : final_mapping init outcomes = outcomes.foldl mapping_upsert init := by
    unfold final_mapping
    rw [foldl_record_mapping]
  rw [hfold]
  constructor
  · exact foldl_upsert_isSome outcomes init k (by rw [h]; rfl)
  · intro hframe
    rw [foldl_upsert_frame outcomes init k hframe, h]

/-- Witness for C9: a pre-existing entry survives a session whose one
success writes a different key. -/
theorem mapping_preserves_untouched_keys_witness :
    dict_get [("a.com.jpg", "http://a.com")] "a.com.jpg" = some "http://a.com" ∧
    dict_get (final_mapping [("a.com.jpg", "http://a.com")]
        [Outcome.success "http://b.org" "shots/b.org.png"]) "a.com.jpg"
      = some "http://a.com" :=
  ⟨by decide,
   (mapping_preserves_untouched_keys [("a.com.jpg", "http://a.com")]
      [Outcome.success "http://b.org" "shots/b.org.png"] "a.com.jpg" "http://a.com"
      (by decide)).2
    (by
      intro url fp hm
      rw [List.mem_singleton] at hm
      injection hm with h1 h2
      rw [h2]
      decide)⟩

/-- C10: for the same captured URL the CLI saves JPEG-encoded bytes under
`<sanitized-host>.jpg` while the GUI saves JPEG-encoded bytes under
`<sanitized-host>.png`; the mapping key recorded for the capture is the
basename of the saved path, so the keys differ between the entry points. -/
theorem artifact_names_differ_between_entry_points (output_dir url : String) :
    ScreenshotCLI.capture_name url = (sanitizeHost (netlocOf url.data)).asString ++ ".jpg" ∧
    ScreenshotGUI.capture_name url = (sanitizeHost (netlocOf url.data)).asString ++ ".png" ∧
    ScreenshotCLI.capture_image_type = "jpeg" ∧
    ScreenshotGUI.capture_image_type = "jpeg" ∧
    basename (ScreenshotCLI.capture_path output_dir url) = ScreenshotCLI.capture_name url ∧
    basename (ScreenshotGUI.capture_path output_dir url) = ScreenshotGUI.capture_name url ∧
    ScreenshotCLI.capture_name url ≠ ScreenshotGUI.capture_name url := by
  refine ⟨rfl, rfl, rfl, rfl, ?_, ?_, ?_⟩
  · exact basename_osPathJoin output_dir _
      (capture_name_no_slash (netlocOf url.data) ".jpg" (by decide))
  · exact basename_osPathJoin output_dir _
      (capture_name_no_slash (netlocOf url.data) ".png" (by decide))
  · intro heq
    have hd := congrArg String.data heq
    unfold ScreenshotCLI.capture_name ScreenshotGUI.capture_name at hd
    rw [String.data_append, String.data_append] at hd
    have hsuf := List.append_cancel_left hd
    exact absurd hsuf (by decide)

/-- Witness for C10 at a concrete output directory and URL. -/
theorem artifact_names_differ_between_entry_points_witness :
    ScreenshotCLI.capture_name "http://a.com"
      = (sanitizeHost (netlocOf "http://a.com".data)).asString ++ ".jpg" ∧
    ScreenshotGUI.capture_name "http://a.com"
      = (sanitizeHost (netlocOf "http://a.com".data)).asString ++ ".png" ∧
    ScreenshotCLI.capture_image_type = "jpeg" ∧
    ScreenshotGUI.capture_image_type = "jpeg" ∧
    basename (ScreenshotCLI.capture_path "shots" "http://a.com")
      = ScreenshotCLI.capture_name "http://a.com" ∧
    basename (ScreenshotGUI.capture_path "shots" "http://a.com")
      = ScreenshotGUI.capture_name "http://a.com" ∧
    ScreenshotCLI.capture_name "http://a.com" ≠ ScreenshotGUI.capture_name "http://a.com" :=
  artifact_names_differ_between_entry_points "shots" "http://a.com"
